import Mathlib

/-!
Verification of the active-message exclusivity protocol of the Sir-Kothay
broadcast application.  The message table is embedded as a list of records;
the `save` override, the deactivation update, row persistence, deletion,
the active-message lookup and the string representation are translated from
`server/broadcast/models.py` and, where the repository sources only describe
them, from the specification of the Active-Message Store.
-/

namespace Broadcast

/-- A row of the BroadcastMessage table (`server/broadcast/models.py`):
primary key `id`, owner foreign key `user`, text `message` (a Python string,
modelled as its character sequence) and the boolean `active` flag. -/
structure BroadcastMessage where
  id : Nat
  user : Nat
  message : List Char
  active : Bool
deriving DecidableEq, Repr

/-- The message table: one entry per persisted BroadcastMessage row. -/
abbrev Store := List BroadcastMessage

/-- The row filter of the deactivation update inside `save`
(`models.py` lines 16-18): `filter(user=self.user, active=True)` selects the
rows of the given owner that are currently active. -/
def deactivationFilter (u : Nat) (r : BroadcastMessage) : Bool :=
  r.user == u && r.active

/-- The owner-only row filter the specification ascribes to the deactivation
step (no condition on `active`); declared for comparison against
`deactivationFilter`, which is the filter the code uses. -/
def ownerFilter (u : Nat) (r : BroadcastMessage) : Bool :=
  r.user == u

/-- Effect of `update(active=False)` on one row under the code filter. -/
def deactFun (u : Nat) (r : BroadcastMessage) : BroadcastMessage :=
  if deactivationFilter u r then { r with active := false } else r

/-- The deactivation update of `save` (`models.py` lines 16-18):
`BroadcastMessage.objects.select_for_update().filter(user=self.user,
active=True).update(active=False)`. -/
def deactivateUserActive (u : Nat) (s : Store) : Store :=
  s.map (deactFun u)

/-- Effect of `update(active=False)` on one row under the owner-only filter
worded by the specification. -/
def deactFunSpec (u : Nat) (r : BroadcastMessage) : BroadcastMessage :=
  if ownerFilter u r then { r with active := false } else r

/-- Owner-only deactivation as the specification words it: `active := false`
on every row of the owner, whatever its current flag. -/
def deactivateUserAll (u : Nat) (s : Store) : Store :=
  s.map (deactFunSpec u)

/-- Effect of `super().save()` on one row when a row with the saved primary
key already exists: that row is overwritten with the saved record. -/
def replaceFun (m : BroadcastMessage) (r : BroadcastMessage) : BroadcastMessage :=
  if r.id == m.id then m else r

/-- `super().save(*args, **kwargs)`: upsert by primary key — update the row
carrying the same `id` when one exists, otherwise insert a new row. -/
def persistRow (m : BroadcastMessage) (s : Store) : Store :=
  if s.any (fun r => r.id == m.id) then s.map (replaceFun m) else s ++ [m]

/-- `BroadcastMessage.save` (`models.py` lines 11-22): an active save runs the
deactivation update over the rows of the owner and then persists the record;
an inactive save persists the record directly, touching nothing else. -/
def save (m : BroadcastMessage) (s : Store) : Store :=
  if m.active then persistRow m (deactivateUserActive m.user s)
  else persistRow m s

/-- Number of rows of owner `u` with `active = true`; the observable the
single-active invariant bounds. -/
def countActive (u : Nat) (s : Store) : Nat :=
  s.countP (fun r => r.user == u && r.active)

/-- Modelled from the spec: `activeMessageFor(owner)`, the read-only lookup of
the Active-Message Store (the broadcast view code is not among the sources):
the message of owner `u` with `active = true`, or none. -/
def activeMessageFor (u : Nat) (s : Store) : Option BroadcastMessage :=
  s.find? (fun r => r.user == u && r.active)

/-- Modelled from the spec: `delete(message)`, removal by identity (primary
key); the delete view code is not among the sources. -/
def deleteMessage (i : Nat) (s : Store) : Store :=
  s.filter (fun r => !(r.id == i))

/-- `BroadcastMessage.__str__` (`models.py` lines 24-25): the f-string
`{self.user.username}: {self.message[:20]}`; the Python slice `[:20]` is
`List.take 20` on the character sequence. -/
def strOf (username : List Char) (m : BroadcastMessage) : List Char :=
  username ++ [':', ' '] ++ m.message.take 20

/-- Well-formedness of a table state: primary keys are pairwise distinct,
the primary-key constraint of the database. -/
def idsNodup (s : Store) : Prop :=
  (s.map (fun r => r.id)).Nodup

instance (s : Store) : Decidable (idsNodup s) := by
  unfold idsNodup
  infer_instance

/-- The primitive operations an activating `save` performs inside
`transaction.atomic()`: acquiring the `select_for_update` lock, running the
deactivation update, persisting the row. -/
inductive TxStep where
  | lock : Nat → TxStep
  | deactivate : Nat → TxStep
  | persist : BroadcastMessage → TxStep
deriving DecidableEq, Repr

/-- State effect of each transaction step; the lock itself does not change
table contents. -/
def applyStep : TxStep → Store → Store
  | TxStep.lock _, s => s
  | TxStep.deactivate u, s => deactivateUserActive u s
  | TxStep.persist m, s => persistRow m s

/-- The step sequence of `save`: lock, deactivate, persist inside one
transaction when the record is active; a bare persist otherwise. -/
def saveSteps (m : BroadcastMessage) : List TxStep :=
  if m.active then [TxStep.lock m.user, TxStep.deactivate m.user, TxStep.persist m]
  else [TxStep.persist m]

/-- Run the steps of one transaction over a working copy of the table;
`fails` marks the steps at which the storage layer raises, and any failure
aborts the run. -/
def runSteps (fails : TxStep → Bool) : List TxStep → Store → Option Store
  | [], s => some s
  | st :: rest, s => if fails st then none else runSteps fails rest (applyStep st s)

/-- Modelled from the spec: the commit semantics of `transaction.atomic()`
(the transaction machinery is the framework, not among the sources): on
success the working state is committed; on any failure the operation reports
an error and the committed state stays the prior one.  Returns the success
flag and the committed state. -/
def atomicSave (fails : TxStep → Bool) (m : BroadcastMessage) (s : Store) :
    Bool × Store :=
  match runSteps fails (saveSteps m) s with
  | some d => (true, d)
  | none => (false, s)

lemma deactFun_id (u : Nat) (r : BroadcastMessage) : (deactFun u r).id = r.id := by
  unfold deactFun
  split <;> rfl

lemma deactFun_user (u : Nat) (r : BroadcastMessage) :
    (deactFun u r).user = r.user := by
  unfold deactFun
  split <;> rfl

lemma replaceFun_id (m r : BroadcastMessage) : (replaceFun m r).id = r.id := by
  unfold replaceFun
  split
  · next h =>
    simp only [beq_iff_eq] at h
    exact h.symm
  · rfl

lemma deactFun_idem (u : Nat) (r : BroadcastMessage) :
    deactFun u (deactFun u r) = deactFun u r := by
  unfold deactFun deactivationFilter
  by_cases h : (r.user == u && r.active) = true
  · simp [h]
  · simp [h]

lemma ids_deactivate (u : Nat) (s : Store) :
    (deactivateUserActive u s).map (fun r => r.id) = s.map (fun r => r.id) := by
  unfold deactivateUserActive
  rw [List.map_map]
  exact List.map_congr_left fun r _ => deactFun_id u r

lemma ids_replace (m : BroadcastMessage) (s : Store) :
    (s.map (replaceFun m)).map (fun r => r.id) = s.map (fun r => r.id) := by
  rw [List.map_map]
  exact List.map_congr_left fun r _ => replaceFun_id m r

lemma idsNodup_deactivate (u : Nat) (s : Store) (h : idsNodup s) :
    idsNodup (deactivateUserActive u s) := by
  unfold idsNodup
  rw [ids_deactivate]
  exact h

lemma idsNodup_persistRow (m : BroadcastMessage) (s : Store) (h : idsNodup s) :
    idsNodup (persistRow m s) := by
  unfold persistRow
  split
  · unfold idsNodup
    rw [ids_replace]
    exact h
  · next hne =>
    unfold idsNodup
    rw [List.map_append]
    rw [List.nodup_append]
    refine ⟨h, List.nodup_singleton _, ?_⟩
    intro a ha hb
    simp only [List.map_cons, List.map_nil, List.mem_singleton] at hb
    subst hb
    rw [List.mem_map] at ha
    obtain ⟨r, hr, hrid⟩ := ha
    exact hne (List.any_eq_true.mpr ⟨r, hr, by simp [hrid]⟩)

lemma idsNodup_save (m : BroadcastMessage) (s : Store) (h : idsNodup s) :
    idsNodup (save m s) := by
  unfold save
  split
  · exact idsNodup_persistRow m _ (idsNodup_deactivate m.user s h)
  · exact idsNodup_persistRow m s h

lemma countActive_deactivate_self (u : Nat) (s : Store) :
    countActive u (deactivateUserActive u s) = 0 := by
  unfold countActive deactivateUserActive
  rw [List.countP_map, List.countP_eq_zero]
  intro r _
  simp only [Function.comp_apply, deactFun, deactivationFilter]
  split
  · next h => simp
  · next h => simpa using h

lemma countActive_deactivate_other (u v : Nat) (h : u ≠ v) (s : Store) :
    countActive u (deactivateUserActive v s) = countActive u s := by
  unfold countActive deactivateUserActive
  rw [List.countP_map]
  apply List.countP_congr
  intro r _
  simp only [Function.comp_apply, deactFun, deactivationFilter]
  split
  · next hsel =>
    have hv : r.user = v := by
      have := hsel
      simp only [Bool.and_eq_true, beq_iff_eq] at this
      exact this.1
    simp [hv, Ne.symm h]
  · rfl

lemma countActive_persistRow_le (m : BroadcastMessage) (u : Nat) (s : Store)
    (hm : (m.user == u && m.active) = false) :
    countActive u (persistRow m s) ≤ countActive u s := by
  unfold persistRow countActive
  split
  · rw [List.countP_map]
    apply List.countP_mono_left
    intro r _ h
    simp only [Function.comp_apply, replaceFun] at h
    by_cases hid : (r.id == m.id) = true
    · rw [if_pos hid] at h
      rw [hm] at h
      exact absurd h (by simp)
    · rwa [if_neg hid] at h
  · rw [List.countP_append]
    simp [hm]

lemma countP_id_le_one (i : Nat) (s : Store) (h : idsNodup s) :
    s.countP (fun r => r.id == i) ≤ 1 := by
  induction s with
  | nil => simp
  | cons r t ih =>
    simp only [idsNodup, List.map_cons, List.nodup_cons] at h
    obtain ⟨hni, hnd⟩ := h
    rw [List.countP_cons]
    by_cases hid : (r.id == i) = true
    · have ht : t.countP (fun x => x.id == i) = 0 := by
        rw [List.countP_eq_zero]
        intro x hx hxi
        simp only [beq_iff_eq] at hid hxi
        exact hni (List.mem_map.mpr ⟨x, hx, by rw [hxi, hid]⟩)
      simp [hid, ht]
    · simpa [hid] using ih hnd

lemma countP_le_one_unique {p : BroadcastMessage → Bool} {l : List BroadcastMessage}
    (hc : l.countP p ≤ 1) {a b : BroadcastMessage}
    (hal : a ∈ l) (hpa : p a = true) (hbl : b ∈ l) (hpb : p b = true) : a = b := by
  induction l with
  | nil => cases hal
  | cons x t ih =>
    rw [List.countP_cons] at hc
    rcases List.mem_cons.mp hal with rfl | hat
    · rcases List.mem_cons.mp hbl with rfl | hbt
      · rfl
      · exfalso
        rw [if_pos hpa] at hc
        have h0 : t.countP p = 0 := by omega
        exact (List.countP_eq_zero.mp h0) b hbt hpb
    · rcases List.mem_cons.mp hbl with rfl | hbt
      · exfalso
        rw [if_pos hpb] at hc
        have h0 : t.countP p = 0 := by omega
        exact (List.countP_eq_zero.mp h0) a hat hpa
      · by_cases hx : p x = true
        · exfalso
          rw [if_pos hx] at hc
          have h0 : t.countP p = 0 := by omega
          exact (List.countP_eq_zero.mp h0) a hat hpa
        · rw [if_neg hx] at hc
          exact ih (by omega) hat hbt

lemma save_active_count (m : BroadcastMessage) (s : Store) (hnd : idsNodup s)
    (ha : m.active = true) :
    countActive m.user (save m s) = 1 ∧ m ∈ save m s ∧
      ∀ r ∈ save m s, (r.user == m.user && r.active) = true → r = m := by
  have hsave : save m s = persistRow m (deactivateUserActive m.user s) := by
    unfold save
    rw [if_pos ha]
  set d := deactivateUserActive m.user s with hd
  have hd0 : countActive m.user d = 0 := countActive_deactivate_self m.user s
  have hdz : ∀ r ∈ d, ¬ (r.user == m.user && r.active) = true := by
    have := hd0
    unfold countActive at this
    exact List.countP_eq_zero.mp this
  have hdnd : idsNodup d := idsNodup_deactivate m.user s hnd
  have hpm : (m.user == m.user && m.active) = true := by simp [ha]
  rw [hsave]
  unfold persistRow
  by_cases hex : d.any (fun r => r.id == m.id) = true
  · rw [if_pos hex]
    obtain ⟨r0, hr0, hid0⟩ := List.any_eq_true.mp hex
    have hmem : m ∈ d.map (replaceFun m) := by
      rw [List.mem_map]
      exact ⟨r0, hr0, by simp [replaceFun, hid0]⟩
    have huniq : ∀ r ∈ d.map (replaceFun m),
        (r.user == m.user && r.active) = true → r = m := by
      intro r hr hp
      obtain ⟨x, hx, hxr⟩ := List.mem_map.mp hr
      by_cases hid : (x.id == m.id) = true
      · rw [← hxr]
        simp [replaceFun, hid]
      · have : r = x := by
          rw [← hxr]
          simp [replaceFun, hid]
        subst this
        exact absurd hp (hdz _ hx)
    refine ⟨?_, hmem, huniq⟩
    have hle : countActive m.user (d.map (replaceFun m)) ≤ 1 := by
      unfold countActive
      rw [List.countP_map]
      calc d.countP ((fun r => r.user == m.user && r.active) ∘ replaceFun m)
          ≤ d.countP (fun r => r.id == m.id) := by
            apply List.countP_mono_left
            intro r hr h
            by_cases hid : (r.id == m.id) = true
            · exact hid
            · exfalso
              simp only [Function.comp_apply, replaceFun, if_neg hid] at h
              exact hdz r hr h
        _ ≤ 1 := countP_id_le_one m.id d hdnd
    have hpos : 0 < countActive m.user (d.map (replaceFun m)) := by
      unfold countActive
      rw [List.countP_pos_iff]
      exact ⟨m, hmem, hpm⟩
    omega
  · rw [if_neg hex]
    have hmem : m ∈ d ++ [m] := by simp
    refine ⟨?_, hmem, ?_⟩
    · unfold countActive
      rw [List.countP_append]
      have h0 : d.countP (fun r => r.user == m.user && r.active) = 0 :=
        List.countP_eq_zero.mpr hdz
      simp [h0, List.countP_cons, hpm, ha]
    · intro r hr hp
      rcases List.mem_append.mp hr with hrd | hrm
      · exact absurd hp (hdz r hrd)
      · simpa using hrm

lemma save_preserves_inv (m : BroadcastMessage) (s : Store)
    (hc : ∀ u, countActive u s ≤ 1) (hnd : idsNodup s) :
    (∀ u, countActive u (save m s) ≤ 1) ∧ idsNodup (save m s) := by
  refine ⟨?_, idsNodup_save m s hnd⟩
  intro u
  by_cases ha : m.active = true
  · by_cases hu : u = m.user
    · subst hu
      exact le_of_eq (save_active_count m s hnd ha).1
    · have hsave : save m s = persistRow m (deactivateUserActive m.user s) := by
        unfold save
        rw [if_pos ha]
      rw [hsave]
      calc countActive u (persistRow m (deactivateUserActive m.user s))
          ≤ countActive u (deactivateUserActive m.user s) := by
            apply countActive_persistRow_le
            simp [beq_iff_eq]
            intro h
            exact absurd h.symm hu
        _ = countActive u s := countActive_deactivate_other u m.user hu s
        _ ≤ 1 := hc u
  · have ha' : m.active = false := by
      cases h : m.active
      · rfl
      · exact absurd h ha
    have hsave : save m s = persistRow m s := by
      unfold save
      rw [if_neg (by simp [ha'])]
    rw [hsave]
    calc countActive u (persistRow m s) ≤ countActive u s := by
          apply countActive_persistRow_le
          simp [ha']
      _ ≤ 1 := hc u

lemma foldl_save_inv (ms : List BroadcastMessage) (s : Store)
    (hc : ∀ u, countActive u s ≤ 1) (hnd : idsNodup s) :
    (∀ u, countActive u (List.foldl (fun t x => save x t) s ms) ≤ 1) ∧
      idsNodup (List.foldl (fun t x => save x t) s ms) := by
  induction ms generalizing s with
  | nil => exact ⟨hc, hnd⟩
  | cons x rest ih =>
    simp only [List.foldl_cons]
    obtain ⟨hc', hnd'⟩ := save_preserves_inv x s hc hnd
    exact ih (save x s) hc' hnd'

/-- Claim C1: starting from an empty table, after any sequence of completed
`save` calls, with any mix of active flags, any user owns at most one
BroadcastMessage row with `active = true`. -/
theorem save_single_active_invariant (ms : List BroadcastMessage) (u : Nat) :
    countActive u (List.foldl (fun t x => save x t) ([] : Store) ms) ≤ 1 :=
  (foldl_save_inv ms [] (fun _ => by simp [countActive]) (by simp [idsNodup])).1 u

/-- Claim C2: for a message with `active = true` and any well-formed table
state, after `save` the owner has exactly one row with `active = true`, the
saved message is in the table, and every active row of the owner is the saved
message itself. -/
theorem save_active_exact (m : BroadcastMessage) (s : Store)
    (hnd : idsNodup s) (ha : m.active = true) :
    countActive m.user (save m s) = 1 ∧ m ∈ save m s ∧
      ∀ r ∈ save m s, (r.user == m.user && r.active) = true → r = m :=
  save_active_count m s hnd ha

/-- Witness for C2 at a concrete table and message. -/
theorem save_active_exact_witness :
    countActive 0 (save ⟨2, 0, [], true⟩ [⟨1, 0, [], true⟩]) = 1 ∧
      (⟨2, 0, [], true⟩ : BroadcastMessage) ∈ save ⟨2, 0, [], true⟩ [⟨1, 0, [], true⟩] ∧
      ∀ r ∈ save (⟨2, 0, [], true⟩ : BroadcastMessage) [⟨1, 0, [], true⟩],
        (r.user == (⟨2, 0, [], true⟩ : BroadcastMessage).user && r.active) = true →
          r = ⟨2, 0, [], true⟩ :=
  save_active_exact ⟨2, 0, [], true⟩ [⟨1, 0, [], true⟩] (by decide) (by decide)

lemma deactFun_eq_spec (u : Nat) (r : BroadcastMessage) :
    deactFun u r = deactFunSpec u r := by
  unfold deactFun deactFunSpec deactivationFilter ownerFilter
  by_cases hu : (r.user == u) = true
  · by_cases hact : r.active = true
    · simp [hu, hact]
    · have hact' : r.active = false := by
        cases h : r.active
        · rfl
        · exact absurd h hact
      cases r
      simp_all
  · simp [hu]

/-- Claim C3, counterexample: the deactivation step of `save` does not use
owner-only filtering — its row filter `filter(user=self.user, active=True)`
does require a row to be currently active, so an inactive row of the owner is
not selected for the update, while the owner-only filter of the
specification selects it. -/
theorem deactivation_requires_active_cex :
    deactivationFilter 7 ⟨3, 7, [], false⟩ = false ∧
      ownerFilter 7 ⟨3, 7, [], false⟩ = true := by
  decide

/-- Claim C3, amended: the deactivation step filters on owner AND
`active = true`, so it selects and writes only currently-active rows;
nevertheless the state it produces is identical to owner-only deactivation —
after the step every pre-existing row of the owner is inactive, also in
previously-inconsistent states — because writing `active = false` to an
already-inactive row changes nothing. -/
theorem deactivation_state_equiv_owner_only (u : Nat) (s : Store) :
    deactivateUserActive u s = deactivateUserAll u s ∧
      countActive u (deactivateUserActive u s) = 0 := by
  constructor
  · unfold deactivateUserActive deactivateUserAll
    exact List.map_congr_left fun r _ => deactFun_eq_spec u r
  · exact countActive_deactivate_self u s

lemma filter_ne_replace (m : BroadcastMessage) (s : Store) :
    (s.map (replaceFun m)).filter (fun r => !(r.id == m.id)) =
      s.filter (fun r => !(r.id == m.id)) := by
  induction s with
  | nil => rfl
  | cons x t ih =>
    simp only [List.map_cons, List.filter_cons]
    by_cases hid : (x.id == m.id) = true
    · have h1 : (!((replaceFun m x).id == m.id)) = false := by
        rw [replaceFun_id, hid]
        rfl
      have h2 : (!(x.id == m.id)) = false := by
        rw [hid]
        rfl
      rw [h1, h2]
      simp [ih]
    · have hx : replaceFun m x = x := by
        unfold replaceFun
        rw [if_neg hid]
      have h1 : (!((replaceFun m x).id == m.id)) = true := by
        rw [replaceFun_id]
        simp_all
      have h2 : (!(x.id == m.id)) = true := by simp_all
      rw [h1, h2, hx]
      simp [ih]

/-- Claim C4: saving a message with `active = false` persists only that
message — every row with a different primary key, for every user, is carried
over unchanged with all its fields; in particular a previously active row of
the owner stays in the table untouched. -/
theorem inactive_save_frame (m : BroadcastMessage) (s : Store)
    (ha : m.active = false) :
    (save m s).filter (fun r => !(r.id == m.id)) =
        s.filter (fun r => !(r.id == m.id)) ∧
      ∀ r ∈ s, ¬ r.id = m.id → r ∈ save m s := by
  have hsave : save m s = persistRow m s := by
    unfold save
    rw [if_neg (by simp [ha])]
  have hfilter : (save m s).filter (fun r => !(r.id == m.id)) =
      s.filter (fun r => !(r.id == m.id)) := by
    rw [hsave]
    unfold persistRow
    split
    · exact filter_ne_replace m s
    · rw [List.filter_append]
      simp
  refine ⟨hfilter, ?_⟩
  intro r hr hne
  have hq : (!(r.id == m.id)) = true := by simp [hne]
  have : r ∈ s.filter (fun r => !(r.id == m.id)) := List.mem_filter.mpr ⟨hr, hq⟩
  rw [← hfilter] at this
  exact (List.mem_filter.mp this).1

/-- Witness for C4 at a concrete table and message. -/
theorem inactive_save_frame_witness :
    (save ⟨2, 0, [], false⟩ [⟨1, 0, [], true⟩]).filter
        (fun r => !(r.id == (⟨2, 0, [], false⟩ : BroadcastMessage).id)) =
      ([⟨1, 0, [], true⟩] : Store).filter
        (fun r => !(r.id == (⟨2, 0, [], false⟩ : BroadcastMessage).id)) :=
  (inactive_save_frame ⟨2, 0, [], false⟩ [⟨1, 0, [], true⟩] (by decide)).1

lemma filter_user_deactivate (u v : Nat) (hv : v ≠ u) (s : Store) :
    (deactivateUserActive u s).filter (fun r => r.user == v) =
      s.filter (fun r => r.user == v) := by
  induction s with
  | nil => rfl
  | cons x t ih =>
    simp only [deactivateUserActive, List.map_cons, List.filter_cons] at ih ⊢
    by_cases hq : (x.user == v) = true
    · have hxv : x.user = v := by simpa [beq_iff_eq] using hq
      have hsel : deactivationFilter u x = false := by
        unfold deactivationFilter
        simp [hxv, hv]
      have hdx : deactFun u x = x := by
        unfold deactFun
        rw [hsel]
        rfl
      rw [hdx]
      simp only [hq, if_true]
      rw [ih]
    · have hq' : ((deactFun u x).user == v) = false := by
        rw [deactFun_user]
        simp_all
      simp only [hq', Bool.false_eq_true, if_false]
      rw [if_neg (by simp_all)]
      exact ih

lemma filter_user_replace (m : BroadcastMessage) (v : Nat)
    (hmv : (m.user == v) = false) (s : Store)
    (hcol : ∀ r ∈ s, r.user = v → ¬ r.id = m.id) :
    (s.map (replaceFun m)).filter (fun r => r.user == v) =
      s.filter (fun r => r.user == v) := by
  induction s with
  | nil => rfl
  | cons x t ih =>
    have hcolt : ∀ r ∈ t, r.user = v → ¬ r.id = m.id := fun r hr =>
      hcol r (List.mem_cons_of_mem x hr)
    simp only [List.map_cons, List.filter_cons]
    by_cases hid : (x.id == m.id) = true
    · have hx : replaceFun m x = m := by
        unfold replaceFun
        rw [if_pos hid]
      have hqx : (x.user == v) = false := by
        by_contra h
        have : x.user = v := by simp_all
        exact hcol x (List.mem_cons_self x t) this (by simpa [beq_iff_eq] using hid)
      rw [hx]
      simp only [hmv, hqx, Bool.false_eq_true, if_false]
      exact ih hcolt
    · have hx : replaceFun m x = x := by
        unfold replaceFun
        rw [if_neg hid]
      rw [hx]
      by_cases hqx : (x.user == v) = true
      · simp only [hqx, if_true]
        rw [ih hcolt]
      · simp only [Bool.not_eq_true] at hqx
        simp only [hqx, Bool.false_eq_true, if_false]
        exact ih hcolt

/-- Claim C5: for distinct users, an activating save for the first user
leaves the rows of the second user unchanged; the saved record must carry a
primary key that does not collide with a row of another user, which the
database primary-key discipline guarantees for both inserts and updates of
the saving user. -/
theorem save_cross_user_frame (m : BroadcastMessage) (s : Store) (v : Nat)
    (ha : m.active = true) (hv : v ≠ m.user)
    (hcol : ∀ r ∈ s, r.user = v → ¬ r.id = m.id) :
    (save m s).filter (fun r => r.user == v) =
      s.filter (fun r => r.user == v) := by
  have hsave : save m s = persistRow m (deactivateUserActive m.user s) := by
    unfold save
    rw [if_pos ha]
  set d := deactivateUserActive m.user s with hd
  have hcold : ∀ r ∈ d, r.user = v → ¬ r.id = m.id := by
    intro r hr hrv
    rw [hd] at hr
    obtain ⟨x, hx, hxr⟩ := List.mem_map.mp hr
    have hxu : x.user = r.user := by rw [← hxr, deactFun_user]
    have hxi : x.id = r.id := by rw [← hxr, deactFun_id]
    rw [← hxi]
    exact hcol x hx (hxu.trans hrv)
  have hmv : (m.user == v) = false := by
    simp [beq_iff_eq]
    exact fun h => hv h.symm
  have hstep1 : d.filter (fun r => r.user == v) = s.filter (fun r => r.user == v) := by
    rw [hd]
    exact filter_user_deactivate m.user v hv s
  rw [hsave]
  unfold persistRow
  split
  · rw [filter_user_replace m v hmv d hcold]
    exact hstep1
  · rw [List.filter_append]
    simp only [List.filter_cons, hmv, Bool.false_eq_true, if_false, List.filter_nil,
      List.append_nil]
    exact hstep1

/-- Witness for C5 at a concrete table with two users. -/
theorem save_cross_user_frame_witness :
    (save ⟨2, 0, [], true⟩ [⟨1, 1, [], true⟩]).filter (fun r => r.user == 1) =
      ([⟨1, 1, [], true⟩] : Store).filter (fun r => r.user == 1) :=
  save_cross_user_frame ⟨2, 0, [], true⟩ [⟨1, 1, [], true⟩] 1 (by decide)
    (by decide) (by decide)

lemma save_step_ptwise (m : BroadcastMessage) (ha : m.active = true)
    (r : BroadcastMessage) :
    replaceFun m (deactFun m.user (replaceFun m (deactFun m.user r))) =
      replaceFun m (deactFun m.user r) := by
  by_cases hid : ((deactFun m.user r).id == m.id) = true
  · have h1 : replaceFun m (deactFun m.user r) = m := by
      unfold replaceFun
      rw [if_pos hid]
    rw [h1]
    have hdm : deactFun m.user m = { m with active := false } := by
      unfold deactFun deactivationFilter
      simp [ha]
    rw [hdm]
    unfold replaceFun
    simp
  · have h1 : replaceFun m (deactFun m.user r) = deactFun m.user r := by
      unfold replaceFun
      rw [if_neg hid]
    rw [h1, deactFun_idem, h1]

/-- Claim C6: saving the same already-active message twice yields the same
final table state as saving it once — `save` is idempotent on an active
message, for every table state. -/
theorem save_idempotent_active (m : BroadcastMessage) (s : Store)
    (ha : m.active = true) : save m (save m s) = save m s := by
  have hs : ∀ t, save m t = persistRow m (deactivateUserActive m.user t) := by
    intro t
    unfold save
    rw [if_pos ha]
  rw [hs s, hs]
  by_cases hex :
      (deactivateUserActive m.user s).any (fun r => r.id == m.id) = true
  · have hP1 : persistRow m (deactivateUserActive m.user s) =
        (deactivateUserActive m.user s).map (replaceFun m) := by
      unfold persistRow
      rw [if_pos hex]
    rw [hP1]
    obtain ⟨r0, hr0, hid0⟩ := List.any_eq_true.mp hex
    have hex2 : (deactivateUserActive m.user
        ((deactivateUserActive m.user s).map (replaceFun m))).any
          (fun r => r.id == m.id) = true := by
      rw [List.any_eq_true]
      refine ⟨deactFun m.user (replaceFun m r0), ?_, ?_⟩
      · unfold deactivateUserActive
        exact List.mem_map.mpr ⟨replaceFun m r0, List.mem_map.mpr ⟨r0, hr0, rfl⟩, rfl⟩
      · rw [deactFun_id, replaceFun_id]
        exact hid0
    have hP2 : persistRow m (deactivateUserActive m.user
        ((deactivateUserActive m.user s).map (replaceFun m))) =
          (deactivateUserActive m.user
            ((deactivateUserActive m.user s).map (replaceFun m))).map
              (replaceFun m) := by
      unfold persistRow
      rw [if_pos hex2]
    rw [hP2]
    unfold deactivateUserActive
    rw [List.map_map, List.map_map, List.map_map, List.map_map]
    exact List.map_congr_left fun r _ => save_step_ptwise m ha r
  · have hP1 : persistRow m (deactivateUserActive m.user s) =
        deactivateUserActive m.user s ++ [m] := by
      unfold persistRow
      rw [if_neg hex]
    rw [hP1]
    have hnomatch : ∀ r ∈ deactivateUserActive m.user s, (r.id == m.id) = false := by
      intro r hr
      by_contra h
      exact hex (List.any_eq_true.mpr ⟨r, hr, by simp_all⟩)
    have hdm : deactFun m.user m = { m with active := false } := by
      unfold deactFun deactivationFilter
      simp [ha]
    have hdeact : deactivateUserActive m.user (deactivateUserActive m.user s ++ [m]) =
        deactivateUserActive m.user s ++ [{ m with active := false }] := by
      unfold deactivateUserActive
      rw [List.map_append, List.map_map]
      congr 1
      · exact List.map_congr_left fun r _ => deactFun_idem m.user r
      · simp only [List.map_cons, List.map_nil]
        rw [hdm]
    rw [hdeact]
    have hex3 : (deactivateUserActive m.user s ++ [{ m with active := false }]).any
        (fun r => r.id == m.id) = true := by
      rw [List.any_eq_true]
      exact ⟨{ m with active := false }, by simp, by simp⟩
    unfold persistRow
    rw [if_pos hex3, List.map_append]
    congr 1
    · have : ∀ r ∈ deactivateUserActive m.user s, replaceFun m r = r := by
        intro r hr
        unfold replaceFun
        rw [if_neg (by simp [hnomatch r hr])]
      calc (deactivateUserActive m.user s).map (replaceFun m)
          = (deactivateUserActive m.user s).map id := List.map_congr_left fun r hr => this r hr
        _ = deactivateUserActive m.user s := List.map_id _
    · simp only [List.map_cons, List.map_nil]
      unfold replaceFun
      simp

/-- Witness for C6 at a concrete table and message. -/
theorem save_idempotent_active_witness :
    save ⟨2, 0, [], true⟩ (save ⟨2, 0, [], true⟩ [⟨1, 0, [], true⟩]) =
      save ⟨2, 0, [], true⟩ [⟨1, 0, [], true⟩] :=
  save_idempotent_active ⟨2, 0, [], true⟩ [⟨1, 0, [], true⟩] (by decide)

/-- Claim C7: an activating save runs as one atomic transaction — if any of
its three steps (lock acquisition, deactivation update, persist) fails, the
operation reports failure and the committed state other transactions observe
is exactly the prior state; if no step fails, the committed state is the
`save` result. -/
theorem atomic_save_rollback (fails : TxStep → Bool) (m : BroadcastMessage)
    (s : Store) (ha : m.active = true) :
    ((∃ st ∈ saveSteps m, fails st = true) → atomicSave fails m s = (false, s)) ∧
      ((∀ st ∈ saveSteps m, fails st = false) →
        atomicSave fails m s = (true, save m s)) := by
  have hsteps : saveSteps m =
      [TxStep.lock m.user, TxStep.deactivate m.user, TxStep.persist m] := by
    unfold saveSteps
    rw [if_pos ha]
  constructor
  · rintro ⟨st, hmem, hf⟩
    rw [hsteps] at hmem
    simp only [List.mem_cons, List.not_mem_nil, or_false] at hmem
    unfold atomicSave
    rw [hsteps]
    by_cases f1 : fails (TxStep.lock m.user) = true
    · simp [runSteps, f1]
    · by_cases f2 : fails (TxStep.deactivate m.user) = true
      · simp [runSteps, applyStep, f1, f2]
      · by_cases f3 : fails (TxStep.persist m) = true
        · simp [runSteps, applyStep, f1, f2, f3]
        · exfalso
          rcases hmem with rfl | rfl | rfl
          · exact f1 hf
          · exact f2 hf
          · exact f3 hf
  · intro hall
    rw [hsteps] at hall
    have f1 : fails (TxStep.lock m.user) = false := hall _ (by simp)
    have f2 : fails (TxStep.deactivate m.user) = false := hall _ (by simp)
    have f3 : fails (TxStep.persist m) = false := hall _ (by simp)
    unfold atomicSave
    rw [hsteps]
    simp [runSteps, applyStep, f1, f2, f3, save, ha]

/-- Witness for C7: a failure injected at the persist step aborts the
transaction and commits nothing. -/
theorem atomic_save_rollback_witness :
    atomicSave (fun st => decide (st = TxStep.persist ⟨1, 0, [], true⟩))
        ⟨1, 0, [], true⟩ [] = (false, []) :=
  (atomic_save_rollback (fun st => decide (st = TxStep.persist ⟨1, 0, [], true⟩))
      ⟨1, 0, [], true⟩ [] (by decide)).1
    ⟨TxStep.persist ⟨1, 0, [], true⟩, by decide, by decide⟩

/-- Claim C8: for every table state and every message, `delete` removes only
rows carrying the deleted primary key and changes no field of any other row —
every row with a different key is carried over verbatim, and every removed
row carried the deleted key; moreover, when the deleted message is the
currently active (hence, under the invariant, unique active) message of its
user, afterwards `activeMessageFor` returns none and no other message is
promoted to active. -/
theorem delete_frame_no_promotion (m : BroadcastMessage) (s : Store) :
    (∀ r ∈ deleteMessage m.id s, r ∈ s) ∧
      (∀ r ∈ s, ¬ r.id = m.id → r ∈ deleteMessage m.id s) ∧
      (∀ r ∈ s, r ∉ deleteMessage m.id s → r.id = m.id) ∧
      (∀ u, activeMessageFor u s = some m → countActive u s ≤ 1 →
        activeMessageFor u (deleteMessage m.id s) = none) := by
  refine ⟨?_, ?_, ?_, ?_⟩
  · intro r hr
    exact (List.mem_filter.mp hr).1
  · intro r hr hne
    exact List.mem_filter.mpr ⟨hr, by simp [hne]⟩
  · intro r hr hnot
    by_contra hne
    exact hnot (List.mem_filter.mpr ⟨hr, by simp [hne]⟩)
  · intro u hfind hcount
    have hfind' : s.find? (fun r => r.user == u && r.active) = some m := hfind
    have hm_mem : m ∈ s := List.mem_of_find?_eq_some hfind'
    have hpm0 := List.find?_some hfind'
    have hpm : (m.user == u && m.active) = true := hpm0
    rw [activeMessageFor, List.find?_eq_none]
    intro x hx hpx
    obtain ⟨hxs, hxq⟩ := List.mem_filter.mp hx
    have hxm : x = m := countP_le_one_unique hcount hxs hpx hm_mem hpm
    subst hxm
    simp at hxq

/-- Witness for C8 at a concrete table: after deleting the active row the
owner has no active message and the inactive row survives untouched. -/
theorem delete_frame_no_promotion_witness :
    activeMessageFor 0 (deleteMessage (⟨1, 0, [], true⟩ : BroadcastMessage).id
      [⟨1, 0, [], true⟩, ⟨2, 0, [], false⟩]) = none :=
  (delete_frame_no_promotion ⟨1, 0, [], true⟩
      [⟨1, 0, [], true⟩, ⟨2, 0, [], false⟩]).2.2.2 0 (by decide) (by decide)

lemma idsNodup_foldl (ms : List BroadcastMessage) (s : Store) (h : idsNodup s) :
    idsNodup (List.foldl (fun t x => save x t) s ms) := by
  induction ms generalizing s with
  | nil => exact h
  | cons x rest ih =>
    simp only [List.foldl_cons]
    exact ih (save x s) (idsNodup_save x s h)

/-- Claim C9: serializing any number of activating saves for one user by
their commit order (the order the per-user lock establishes), after all of
them complete the user owns exactly one active message, it is the last one to
commit, and it is one of the submitted messages. -/
theorem concurrent_saves_last_commit_wins (u : Nat) (s : Store)
    (ms : List BroadcastMessage) (hnd : idsNodup s) (hne : ms ≠ [])
    (hall : ∀ x ∈ ms, x.active = true ∧ x.user = u) :
    countActive u (List.foldl (fun t x => save x t) s ms) = 1 ∧
      ms.getLast hne ∈ List.foldl (fun t x => save x t) s ms ∧
      (∀ r ∈ List.foldl (fun t x => save x t) s ms,
        (r.user == u && r.active) = true → r = ms.getLast hne) ∧
      ms.getLast hne ∈ ms := by
  rcases List.eq_nil_or_concat ms with rfl | ⟨L, b, hms⟩
  · exact absurd rfl hne
  · rw [List.concat_eq_append] at hms
    subst hms
    have hb : b ∈ L ++ [b] := by simp
    obtain ⟨hba, hbu⟩ := hall b hb
    have hlast : (L ++ [b]).getLast hne = b := List.getLast_concat L
    rw [hlast]
    have hfold : List.foldl (fun t x => save x t) s (L ++ [b]) =
        save b (List.foldl (fun t x => save x t) s L) := by
      rw [List.foldl_append]
      rfl
    rw [hfold]
    have hndL : idsNodup (List.foldl (fun t x => save x t) s L) :=
      idsNodup_foldl L s hnd
    obtain ⟨h1, h2, h3⟩ :=
      save_active_count b (List.foldl (fun t x => save x t) s L) hndL hba
    rw [hbu] at h1 h3
    exact ⟨h1, h2, h3, hb⟩

/-- Witness for C9: two activating saves for user 0, serialized in commit
order; the second one ends up the single active message. -/
theorem concurrent_saves_last_commit_wins_witness :
    countActive 0 (List.foldl (fun t x => save x t) ([] : Store)
      [⟨1, 0, [], true⟩, ⟨2, 0, [], true⟩]) = 1 :=
  (concurrent_saves_last_commit_wins 0 [] [⟨1, 0, [], true⟩, ⟨2, 0, [], true⟩]
      (by decide) (by decide) (by decide)).1

/-- Claim C10: the string representation of a message is the username of the
owner, then a colon and a space, then exactly the first 20 characters of the
text — a text of at most 20 characters is shown in full, a longer text is
cut to 20 characters with no ellipsis marker, as the length equation shows. -/
theorem str_repr_first20 (username : List Char) (m : BroadcastMessage) :
    strOf username m = username ++ [':', ' '] ++ m.message.take 20 ∧
      (m.message.length ≤ 20 →
        strOf username m = username ++ [':', ' '] ++ m.message) ∧
      (strOf username m).length = username.length + 2 + min 20 m.message.length := by
  refine ⟨rfl, ?_, ?_⟩
  · intro h
    unfold strOf
    rw [List.take_of_length_le h]
  · unfold strOf
    simp [List.length_append, List.length_take]
    omega

/-- Witness for C10: a short text is shown in full after the username, colon
and space. -/
theorem str_repr_first20_witness :
    strOf ['a'] ⟨1, 0, ['h', 'i'], true⟩ = ['a'] ++ [':', ' '] ++ ['h', 'i'] :=
  (str_repr_first20 ['a'] ⟨1, 0, ['h', 'i'], true⟩).2.1 (by decide)

end Broadcast
